import Mathlib

/-!
Shallow embedding of the SmartBookmarks content-indexing and vector-search
core (src/bookmarks/utils.py) and the claims settled against it.

The vector store (`_load_faiss`, `_save_faiss`, `add_embedding_to_index`,
`search_embeddings`) is modelled at the level the Python code works at: the
state is the pair of on-disk files (FAISS index file, JSON vector map), each
operation loads the pair, works on it and (for `add`) writes it back.
Vectors are lists of integers (exact arithmetic on a subring of the
code's float values; the spec's numeric semantics is squared Euclidean
distance with ties broken by insertion order), classifier scores are exact
rationals.  The external libraries the pipeline calls
(requests, pdfminer, sentence-transformers, the zero-shot classifier) are
oracle functions supplied in an `Env`; a `none` result models the call
raising an exception.
-/

namespace SmartBookmarks

/-- Python strings are modelled as lists of characters. -/
abbrev Str := List Char

/-- An embedding vector.  The Python code passes lists of floats; every
float32 is an exact rational, and the integers are an exactly-represented
subring on which all distance comparisons below are computed without
rounding, so vectors are modelled as lists of integers. -/
abbrev Vec := List Int

/-- The JSON vector map: string-encoded integer positions to bookmark ids,
modelled as an association list from positions to ids. -/
abbrev VecMap := List (Nat × Int)

/-- Lookup in the vector map (`vec_map[str(i)]` guarded by `str(i) in vec_map`). -/
def mapLookup (m : VecMap) (k : Nat) : Option Int :=
  match m with
  | [] => none
  | (k', v) :: rest => if k = k' then some v else mapLookup rest k

/-- Python dict assignment `vec_map[str(pos)] = bookmark_id`: overwrite the
entry in place when the key exists, append otherwise. -/
def mapUpdate (m : VecMap) (k : Nat) (v : Int) : VecMap :=
  match m with
  | [] => [(k, v)]
  | (k', v') :: rest => if k = k' then (k, v) :: rest else (k', v') :: mapUpdate rest k v

/-- A flat L2 FAISS index: its fixed dimensionality `d` and the stored
vectors in insertion order (position = list index, `ntotal` = length). -/
structure FaissIndex where
  d : Nat
  vecs : List Vec
deriving DecidableEq

/-- The two on-disk files.  `none` models a file that does not exist. -/
structure Disk where
  indexFile : Option FaissIndex
  mapFile : Option VecMap
deriving DecidableEq

/-- A fresh data directory: neither file exists. -/
def emptyDisk : Disk := Disk.mk none none

/-- `_load_faiss`: read the map if its file exists (else the empty dict) and
the index if its file exists (else `None`). -/
def _load_faiss (d : Disk) : Option FaissIndex × VecMap :=
  (d.indexFile, d.mapFile.getD [])

/-- `_save_faiss`: write the index file only when there is an index, always
rewrite the map file in full. -/
def _save_faiss (idx : Option FaissIndex) (m : VecMap) (d : Disk) : Disk :=
  Disk.mk (match idx with | some i => some i | none => d.indexFile) (some m)

/-- Squared Euclidean distance, the metric of `faiss.IndexFlatL2`. -/
def sqDist : Vec → Vec → Int
  | [], _ => 0
  | _, [] => 0
  | x :: xs, y :: ys => (x - y) * (x - y) + sqDist xs ys

/-- Ranking relation of a flat-L2 search for query `q` on (position, vector)
pairs: ascending squared distance, ties broken by insertion position. -/
def distRel (q : Vec) (a b : Nat × Vec) : Prop :=
  sqDist a.2 q < sqDist b.2 q ∨ (sqDist a.2 q = sqDist b.2 q ∧ a.1 ≤ b.1)

instance (q : Vec) : DecidableRel (distRel q) := fun a b =>
  if h1 : sqDist a.2 q < sqDist b.2 q then isTrue (Or.inl h1)
  else
    if h2 : sqDist a.2 q = sqDist b.2 q then
      if h3 : a.1 ≤ b.1 then isTrue (Or.inr ⟨h2, h3⟩)
      else
        isFalse (fun hc => by
          rcases hc with hc | ⟨_, hc3⟩
          exacts [h1 hc, h3 hc3])
    else
      isFalse (fun hc => by
        rcases hc with hc | ⟨hc2, _⟩
        exacts [h1 hc, h2 hc2])

instance (q : Vec) : IsTotal (Nat × Vec) (distRel q) := by
  constructor
  intro a b
  rcases lt_trichotomy (sqDist a.2 q) (sqDist b.2 q) with h | h | h
  · exact Or.inl (Or.inl h)
  · rcases Nat.le_total a.1 b.1 with h' | h'
    · exact Or.inl (Or.inr ⟨h, h'⟩)
    · exact Or.inr (Or.inr ⟨h.symm, h'⟩)
  · exact Or.inr (Or.inl h)

instance (q : Vec) : IsTrans (Nat × Vec) (distRel q) := by
  constructor
  intro a b c hab hbc
  rcases hab with h1 | ⟨h1, h1'⟩ <;> rcases hbc with h2 | ⟨h2, h2'⟩
  · exact Or.inl (h1.trans h2)
  · exact Or.inl (lt_of_lt_of_eq h1 h2)
  · exact Or.inl (lt_of_eq_of_lt h1 h2)
  · exact Or.inr ⟨h1.trans h2, h1'.trans h2'⟩

/-- The stored vectors paired with their positions `k, k+1, ...`. -/
def posEnum (k : Nat) : List Vec → List (Nat × Vec)
  | [] => []
  | v :: rest => (k, v) :: posEnum (k + 1) rest

/-- `index.search(q, kk)`: the `kk` positions nearest to `q`, ascending
squared distance, ties by insertion order. -/
def faissSearch (idx : FaissIndex) (q : Vec) (kk : Nat) : List Nat :=
  ((List.insertionSort (distRel q) (posEnum 0 idx.vecs)).take kk).map Prod.fst

/-- `index.ntotal` of the on-disk state; 0 when no index file exists. -/
def ntotal (d : Disk) : Nat :=
  match d.indexFile with
  | none => 0
  | some idx => idx.vecs.length

/-- The body of `search_embeddings` on a loaded (index, map) pair.  `none`
models the FAISS dimensionality assertion failing (an uncaught exception);
the empty checks come first, exactly as in the code. -/
def searchPair (q : Vec) (k : Nat) (idx? : Option FaissIndex) (m : VecMap) :
    Option (List Int) :=
  match idx? with
  | none => some []
  | some idx =>
    if idx.vecs.length = 0 then some []
    else if q.length = idx.d then
      some ((faissSearch idx q (min k idx.vecs.length)).filterMap (fun p => mapLookup m p))
    else none

/-- `search_embeddings(query_vec, k)`: load both files, return `[]` when no
index exists or it is empty, else translate the `min(k, ntotal)` nearest
positions through the map, skipping unmapped positions. -/
def search_embeddings (q : Vec) (k : Nat) (d : Disk) : Option (List Int) :=
  searchPair q k (_load_faiss d).1 (_load_faiss d).2

/-- `add_embedding_to_index(bookmark_id, emb)`: load both files, create the
index sized to the vector when none exists, append the vector at position
`ntotal`, record the mapping and write both files back.  `none` models the
FAISS dimensionality assertion failing on a mismatched vector. -/
def add_embedding_to_index (bid : Int) (emb : Vec) (d : Disk) : Option Disk :=
  match (_load_faiss d).1 with
  | none =>
    some (_save_faiss (some (FaissIndex.mk emb.length [emb]))
      (mapUpdate (_load_faiss d).2 0 bid) d)
  | some idx =>
    if emb.length = idx.d then
      some (_save_faiss (some (FaissIndex.mk idx.d (idx.vecs ++ [emb])))
        (mapUpdate (_load_faiss d).2 idx.vecs.length bid) d)
    else none

/-- A sequence of `add` calls, each required to succeed. -/
def addAll (l : List (Int × Vec)) (d : Disk) : Option Disk :=
  match l with
  | [] => some d
  | (i, v) :: rest =>
    match add_embedding_to_index i v d with
    | none => none
    | some d' => addAll rest d'

/-- The map produced by successive adds: ids at positions `k, k+1, ...`. -/
def mkMap (k : Nat) (ids : List Int) : VecMap :=
  match ids with
  | [] => []
  | i :: rest => (k, i) :: mkMap (k + 1) rest

/-- The ids of a sequence of adds, in order. -/
def idsOf (l : List (Int × Vec)) : List Int := l.map Prod.fst

/-- The vectors of a sequence of adds, in order. -/
def vecsOf (l : List (Int × Vec)) : List Vec := l.map Prod.snd

/-- An attempt to index a document: either it reaches `add` (and the add
must succeed), or it fails earlier (no text, embedding failed, ...) and
never calls `add` at all. -/
inductive Attempt where
  | ok (id : Int) (emb : Vec)
  | failed
deriving DecidableEq

/-- Run a sequence of attempts against the store: failed attempts leave the
store untouched. -/
def runAttempts : List Attempt → Disk → Option Disk
  | [], d => some d
  | Attempt.failed :: rest, d => runAttempts rest d
  | Attempt.ok i v :: rest, d =>
    match add_embedding_to_index i v d with
    | none => none
    | some d' => runAttempts rest d'

/-- How many attempts reached `add` (the successful adds). -/
def okCount : List Attempt → Nat
  | [] => 0
  | Attempt.ok _ _ :: rest => okCount rest + 1
  | Attempt.failed :: rest => okCount rest

/-- The index/mapping consistency invariant: one entry per stored vector,
every mapped position below `ntotal`, no position mapped twice. -/
def mapInv (d : Disk) : Prop :=
  ((_load_faiss d).2).length = ntotal d
  ∧ (∀ pr ∈ (_load_faiss d).2, pr.1 < ntotal d)
  ∧ (((_load_faiss d).2).map Prod.fst).Nodup

/-! The indexing pipeline (`process_bookmark`).  The Django model objects
and the external libraries are embedded as plain data and oracles: a
`Bookmark` carries the fields the pipeline reads and writes, and an `Env`
supplies the outcome of each external call (`none` = the call raised). -/

/-- The fields of the `Bookmark` model the pipeline touches: the primary
key, the related `BookmarkLink` urls and `BookmarkFile` paths, and the
text/embedding/tags the pipeline writes back. -/
structure Bookmark where
  id : Int
  links : List Str
  files : List Str
  text : Str
  embedding : Option Vec
  tags : List Str
deriving DecidableEq

/-- Oracles for the external calls of utils.py: `extract_text_from_url`,
`extract_text_from_file`, the sentence-transformers model (absent when the
library or model cannot be loaded) and the zero-shot classifier, which
scores a text against candidate labels. -/
structure Env where
  extractUrl : Str → Option Str
  extractFile : Str → Option Str
  embedModel : Option (Str → Vec)
  clf : Option (Str → List Str → List (Str × Rat))

/-- `generate_embedding(text)`: encode with the (lazily loaded, process-wide)
model; no check of any kind is made on `text`.  `none` models the model
being unavailable (the import or load raising). -/
def generate_embedding (env : Env) (text : Str) : Option Vec :=
  match env.embedModel with
  | none => none
  | some m => some (m text)

/-- The default confidence threshold of `auto_tag`, 0.3, as an already
normalized rational so that comparisons against it compute. -/
def tagThreshold : Rat := ⟨3, 10, by norm_num, by norm_num⟩

/-- The fixed candidate labels of `auto_tag`. -/
def defaultLabels : List Str :=
  ["natural language processing".toList, "machine learning".toList,
   "deep learning".toList, "computer vision".toList, "data science".toList,
   "ai".toList, "tutorial".toList, "paper".toList, "web development".toList,
   "python".toList, "chat log".toList, "research".toList]

/-- `auto_tag(text, candidate_labels=None, threshold=0.3)`: run the
zero-shot classifier and keep the labels scoring at least the threshold.
`none` models the classifier being unavailable or raising. -/
def auto_tag (env : Env) (text : Str) (cand : Option (List Str)) (threshold : Rat) :
    Option (List Str) :=
  match env.clf with
  | none => none
  | some clf =>
    some (((clf text (cand.getD defaultLabels)).filter
      (fun p => threshold ≤ p.2)).map Prod.fst)

/-- Observable effects of one `process_bookmark` run, in program order:
model invocations, the single `bookmark.save()` (persisting text and
embedding), each `bookmark.tags.add` (persisting one tag), and the FAISS
files being rewritten by a successful `add_embedding_to_index`. -/
inductive Event where
  | embedCall (text : Str)
  | tagCall (text : Str)
  | saveDoc (text : Str) (emb : Option Vec)
  | tagAdd (lbl : Str)
  | faissAdd (id : Int) (emb : Vec)
deriving DecidableEq

/-- Events that persist part of the document itself (the `save()` and each
many-to-many tag insertion). -/
def isDocPersist : Event → Bool
  | Event.saveDoc _ _ => true
  | Event.tagAdd _ => true
  | _ => false

/-- The `bookmark.save()` event alone. -/
def isSave : Event → Bool
  | Event.saveDoc _ _ => true
  | _ => false

/-- Python `str.strip()`: drop leading and trailing whitespace. -/
def pyStrip (s : Str) : Str :=
  ((s.dropWhile Char.isWhitespace).reverse.dropWhile Char.isWhitespace).reverse

/-- Python `"\n".join(chunks)`. -/
def joinNL : List Str → Str
  | [] => []
  | [c] => c
  | c :: rest => c ++ '\n' :: joinNL rest

/-- The successfully extracted chunks, urls first then files, failures
skipped (`try ... except` around each extraction). -/
def chunksOf (env : Env) (bm : Bookmark) : List Str :=
  bm.links.filterMap env.extractUrl ++ bm.files.filterMap env.extractFile

/-- `full_text = "\n".join(chunks).strip()`. -/
def fullTextOf (env : Env) (bm : Bookmark) : Str :=
  pyStrip (joinNL (chunksOf env bm))

/-- Merging labels into the tag set: `Tag.objects.get_or_create` plus the
set-semantics `bookmark.tags.add`, one label at a time. -/
def addTags (tags : List Str) (labels : List Str) : List Str :=
  match labels with
  | [] => tags
  | l :: rest => addTags (if l ∈ tags then tags else tags ++ [l]) rest

/-- The embedding stage: attempted only on non-empty text; on failure the
embedding is explicitly cleared. -/
def embedStage (env : Env) (bm : Bookmark) (ft : Str) : Bookmark × List Event :=
  if ft = [] then (bm, [])
  else
    match generate_embedding env ft with
    | some v => ({ bm with embedding := some v }, [Event.embedCall ft])
    | none => ({ bm with embedding := none }, [Event.embedCall ft])

/-- The tag merge performed by a successful tagging stage. -/
def tagStage (env : Env) (text : Str) (tags : List Str) : List Str :=
  match auto_tag env text none tagThreshold with
  | some labels => addTags tags labels
  | none => tags

/-- The auto-tag stage: attempted only on non-empty text; a failure is
swallowed and leaves the tags unchanged. -/
def tagStageRun (env : Env) (bm : Bookmark) (ft : Str) : Bookmark × List Event :=
  if ft = [] then (bm, [])
  else
    match auto_tag env ft none tagThreshold with
    | some labels =>
      ({ bm with tags := addTags bm.tags labels },
        Event.tagCall ft :: labels.map Event.tagAdd)
    | none => (bm, [Event.tagCall ft])

/-- The FAISS stage: run only when the (possibly stale) embedding is truthy,
a failure of the add is swallowed and leaves the files unchanged. -/
def faissStage (bm : Bookmark) (d : Disk) : Disk × List Event :=
  match bm.embedding with
  | some emb =>
    if emb = [] then (d, [])
    else
      match add_embedding_to_index bm.id emb d with
      | some d' => (d', [Event.faissAdd bm.id emb])
      | none => (d, [])
  | none => (d, [])

/-- The outcome of one `process_bookmark` run: the updated bookmark, the
updated on-disk vector store, and the trace of observable effects. -/
structure ProcResult where
  bm : Bookmark
  disk : Disk
  trace : List Event
deriving DecidableEq

/-- `process_bookmark(bookmark)`: gather text from every source (failures
skipped), unconditionally overwrite `bookmark.text`, embed when text is
non-empty, `save()`, tag when text is non-empty, and index when the
embedding field is truthy. -/
def process_bookmark (env : Env) (bm : Bookmark) (d : Disk) : ProcResult :=
  let ft := fullTextOf env bm
  let s2 := embedStage env { bm with text := ft } ft
  let s3 := tagStageRun env s2.1 ft
  let s4 := faissStage s3.1 d
  ProcResult.mk s3.1 s4.1
    (s2.2 ++ Event.saveDoc s2.1.text s2.1.embedding :: (s3.2 ++ s4.2))

/-! Concrete states and environments used to instantiate the theorems. -/

/-- The store after adding vector [1,0] for bookmark 5 and [0,1] for bookmark 9. -/
def dEx1 : Disk :=
  Disk.mk (some (FaissIndex.mk 2 [[1, 0], [0, 1]])) (some [(0, 5), (1, 9)])

/-- The store after indexing bookmark 17 twice ([1], then [2]). -/
def dC4 : Disk :=
  Disk.mk (some (FaissIndex.mk 1 [[1], [2]])) (some [(0, 17), (1, 17)])

/-- The store after one failed attempt and one successful add (id 3, [2]). -/
def dC2pre : Disk := Disk.mk (some (FaissIndex.mk 1 [[2]])) (some [(0, 3)])

/-- `dC2pre` after a further add of (id 7, [5]). -/
def dC2post : Disk :=
  Disk.mk (some (FaissIndex.mk 1 [[2], [5]])) (some [(0, 3), (1, 7)])

/-- One url extracting to "hi"; embedding model and classifier available. -/
def envOk : Env :=
  Env.mk (fun _ => some "hi".toList) (fun _ => none)
    (some (fun _ => [1])) (some (fun _ _ => [("ml".toList, 1)]))

/-- Extraction works but the embedding model is unavailable. -/
def envNoEmbed : Env :=
  Env.mk (fun _ => some "hi".toList) (fun _ => none)
    none (some (fun _ _ => [("ml".toList, 1)]))

/-- Every extraction fails; models available. -/
def envAllFail : Env :=
  Env.mk (fun _ => none) (fun _ => none)
    (some (fun _ => [1])) (some (fun _ _ => [("ml".toList, 1)]))

/-- A model producing 384-dimensional vectors, as all-MiniLM-L6-v2 does. -/
def env384 : Env :=
  Env.mk (fun _ => none) (fun _ => none)
    (some (fun _ => List.replicate 384 (0 : Int))) none

/-- A fresh bookmark (id 7) with one link and no stored data. -/
def bmEx : Bookmark := Bookmark.mk 7 ["u".toList] [] [] none []

/-- A previously processed bookmark: stored text, embedding and a tag. -/
def bmOld : Bookmark :=
  Bookmark.mk 7 ["u".toList] [] "old".toList (some [3]) ["t".toList]

/-- The bookmark as it stands just before the embedding stage: its text has
been overwritten with the gathered full text. -/
def bm1Of (env : Env) (bm : Bookmark) : Bookmark :=
  { bm with text := fullTextOf env bm }

/-- The embedding stage of one `process_bookmark` run. -/
def s2Of (env : Env) (bm : Bookmark) : Bookmark × List Event :=
  embedStage env (bm1Of env bm) (fullTextOf env bm)

/-- The tagging stage of one `process_bookmark` run. -/
def s3Of (env : Env) (bm : Bookmark) : Bookmark × List Event :=
  tagStageRun env (s2Of env bm).1 (fullTextOf env bm)

/-- The indexing stage of one `process_bookmark` run. -/
def s4Of (env : Env) (bm : Bookmark) (d : Disk) : Disk × List Event :=
  faissStage (s3Of env bm).1 d

/-! Supporting lemmas about the vector-map, the metric and the enumeration
of index positions. -/

theorem mapLookup_update_self (m : VecMap) (k : Nat) (v : Int) :
    mapLookup (mapUpdate m k v) k = some v := by
  induction m with
  | nil => simp [mapUpdate, mapLookup]
  | cons pr rest ih =>
    obtain ⟨k', v'⟩ := pr
    by_cases h : k = k'
    · simp [mapUpdate, mapLookup, h]
    · simp [mapUpdate, mapLookup, h, ih]

theorem mapUpdate_fresh (m : VecMap) (k : Nat) (v : Int)
    (h : ∀ pr ∈ m, pr.1 ≠ k) : mapUpdate m k v = m ++ [(k, v)] := by
  induction m with
  | nil => rfl
  | cons pr rest ih =>
    obtain ⟨k', v'⟩ := pr
    have hk : ¬ k = k' := fun he => h (k', v') (by simp) (by simp [he])
    simp [mapUpdate, hk, ih (fun q hq => h q (List.mem_cons_of_mem _ hq))]

theorem mkMap_lookup (ids : List Int) (k j : Nat) :
    mapLookup (mkMap k ids) (k + j) = ids.get? j := by
  induction ids generalizing k j with
  | nil => simp [mkMap, mapLookup]
  | cons i rest ih =>
    cases j with
    | zero => simp [mkMap, mapLookup]
    | succ j' =>
      have hne : ¬ k + (j' + 1) = k := by omega
      simp only [mkMap, mapLookup, if_neg hne]
      rw [show k + (j' + 1) = (k + 1) + j' from by omega, ih]
      rfl

theorem sqDist_nonneg (u v : Vec) : 0 ≤ sqDist u v := by
  induction u generalizing v with
  | nil => simp [sqDist]
  | cons x xs ih =>
    cases v with
    | nil => simp [sqDist]
    | cons y ys =>
      simp only [sqDist]
      exact add_nonneg (mul_self_nonneg _) (ih ys)

theorem sqDist_self (v : Vec) : sqDist v v = 0 := by
  induction v with
  | nil => rfl
  | cons x xs ih => simp [sqDist, ih]

theorem sqDist_eq_zero (u v : Vec) (hlen : u.length = v.length)
    (h : sqDist u v = 0) : u = v := by
  induction u generalizing v with
  | nil =>
    cases v with
    | nil => rfl
    | cons y ys => simp at hlen
  | cons x xs ih =>
    cases v with
    | nil => simp at hlen
    | cons y ys =>
      simp only [sqDist] at h
      have h1 := (add_eq_zero_iff_of_nonneg (mul_self_nonneg _)
        (sqDist_nonneg xs ys)).mp h
      have hx : x = y := sub_eq_zero.mp (mul_self_eq_zero.mp h1.1)
      have hxs : xs = ys := ih ys (by simpa using hlen) h1.2
      rw [hx, hxs]

theorem posEnum_length (k : Nat) (vs : List Vec) :
    (posEnum k vs).length = vs.length := by
  induction vs generalizing k with
  | nil => rfl
  | cons v rest ih => simp [posEnum, ih]

theorem posEnum_mem (k : Nat) (vs : List Vec) (p : Nat) (w : Vec)
    (h : (p, w) ∈ posEnum k vs) : ∃ j, vs.get? j = some w ∧ p = k + j := by
  induction vs generalizing k with
  | nil => simp [posEnum] at h
  | cons v rest ih =>
    simp only [posEnum, List.mem_cons, Prod.mk.injEq] at h
    rcases h with ⟨hp, hw⟩ | h
    · exact ⟨0, by simp [hw], by omega⟩
    · obtain ⟨j, hj, hp⟩ := ih (k + 1) h
      exact ⟨j + 1, by simpa using hj, by omega⟩

theorem posEnum_mem_of (k j : Nat) (vs : List Vec) (w : Vec)
    (h : vs.get? j = some w) : (k + j, w) ∈ posEnum k vs := by
  induction vs generalizing k j with
  | nil => simp at h
  | cons v rest ih =>
    cases j with
    | zero =>
      simp only [List.get?] at h
      simp [posEnum, Option.some.inj h]
    | succ j' =>
      simp only [List.get?] at h
      have hmem := ih (k + 1) j' h
      have he : k + (j' + 1) = (k + 1) + j' := by omega
      rw [he]
      exact List.mem_cons_of_mem _ hmem

/-! Shape of the store after a sequence of successful adds. -/

theorem add_empty (i : Int) (v : Vec) (d' : Disk)
    (h : add_embedding_to_index i v emptyDisk = some d') :
    d' = Disk.mk (some (FaissIndex.mk v.length [v])) (some [(0, i)]) :=
  (Option.some.inj h).symm

theorem add_canon (i : Int) (v : Vec) (dim : Nat) (vs0 : List Vec) (m0 : VecMap)
    (d' : Disk) (hm : ∀ pr ∈ m0, pr.1 < vs0.length)
    (h : add_embedding_to_index i v
      (Disk.mk (some (FaissIndex.mk dim vs0)) (some m0)) = some d') :
    v.length = dim ∧
      d' = Disk.mk (some (FaissIndex.mk dim (vs0 ++ [v])))
        (some (m0 ++ [(vs0.length, i)])) := by
  unfold add_embedding_to_index _load_faiss at h
  by_cases hv : v.length = dim
  · refine ⟨hv, ?_⟩
    simp only [hv, if_pos, Option.getD_some] at h
    rw [mapUpdate_fresh m0 vs0.length i
      (fun pr hpr => Nat.ne_of_lt (hm pr hpr))] at h
    exact (Option.some.inj h).symm
  · simp only [hv] at h
    simp at h

theorem addAll_canon (l : List (Int × Vec)) (dim : Nat) (vs0 : List Vec)
    (m0 : VecMap) (d : Disk)
    (hm : ∀ pr ∈ m0, pr.1 < vs0.length)
    (h : addAll l (Disk.mk (some (FaissIndex.mk dim vs0)) (some m0)) = some d) :
    d = Disk.mk (some (FaissIndex.mk dim (vs0 ++ vecsOf l)))
        (some (m0 ++ mkMap vs0.length (idsOf l)))
      ∧ ∀ v ∈ vecsOf l, v.length = dim := by
  induction l generalizing vs0 m0 with
  | nil =>
    simp only [addAll] at h
    constructor
    · rw [← Option.some.inj h]; simp [vecsOf, idsOf, mkMap]
    · simp [vecsOf]
  | cons pr rest ih =>
    obtain ⟨i, v⟩ := pr
    simp only [addAll] at h
    cases hadd : add_embedding_to_index i v
        (Disk.mk (some (FaissIndex.mk dim vs0)) (some m0)) with
    | none => rw [hadd] at h; simp at h
    | some d1 =>
      rw [hadd] at h
      obtain ⟨hv, hd1⟩ := add_canon i v dim vs0 m0 d1 hm hadd
      subst hd1
      have hm' : ∀ q ∈ m0 ++ [(vs0.length, i)], q.1 < (vs0 ++ [v]).length := by
        intro q hq
        rcases List.mem_append.mp hq with hq | hq
        · have := hm q hq; simp; omega
        · simp at hq; simp [hq]
      obtain ⟨hd, hlen⟩ := ih (vs0 ++ [v]) (m0 ++ [(vs0.length, i)]) hm' h
      constructor
      · rw [hd]
        simp [vecsOf, idsOf, mkMap, List.append_assoc]
      · intro w hw
        simp only [vecsOf, List.map_cons, List.mem_cons] at hw
        rcases hw with hw | hw
        · rw [hw]; exact hv
        · exact hlen w hw

theorem addAll_shape (l : List (Int × Vec)) (d : Disk)
    (h : addAll l emptyDisk = some d) :
    (l = [] ∧ d = emptyDisk) ∨
      ∃ dim, (∀ v ∈ vecsOf l, v.length = dim)
        ∧ d = Disk.mk (some (FaissIndex.mk dim (vecsOf l)))
            (some (mkMap 0 (idsOf l))) := by
  cases l with
  | nil => exact Or.inl ⟨rfl, (Option.some.inj h).symm⟩
  | cons pr rest =>
    obtain ⟨i, v⟩ := pr
    right
    simp only [addAll] at h
    cases hadd : add_embedding_to_index i v emptyDisk with
    | none => rw [hadd] at h; simp at h
    | some d1 =>
      rw [hadd] at h
      have hd1 := add_empty i v d1 hadd
      subst hd1
      have hm : ∀ q ∈ ([(0, i)] : VecMap), q.1 < ([v] : List Vec).length := by
        intro q hq; simp at hq; simp [hq]
      obtain ⟨hd, hlen⟩ := addAll_canon rest v.length [v] [(0, i)] d hm h
      refine ⟨v.length, ?_, ?_⟩
      · intro w hw
        simp only [vecsOf, List.map_cons, List.mem_cons] at hw
        rcases hw with hw | hw
        · rw [hw]
        · exact hlen w hw
      · rw [hd]
        simp [vecsOf, idsOf, mkMap]

/-! Case equations for `add_embedding_to_index` and `search_embeddings`. -/

theorem add_eq_of_no_index (i : Int) (v : Vec) (d : Disk)
    (h : d.indexFile = none) :
    add_embedding_to_index i v d
      = some (Disk.mk (some (FaissIndex.mk v.length [v]))
          (some (mapUpdate (d.mapFile.getD []) 0 i))) := by
  unfold add_embedding_to_index _load_faiss
  rw [h]
  rfl

theorem add_eq_of_index (i : Int) (v : Vec) (d : Disk) (idx : FaissIndex)
    (h : d.indexFile = some idx) :
    add_embedding_to_index i v d
      = if v.length = idx.d then
          some (Disk.mk (some (FaissIndex.mk idx.d (idx.vecs ++ [v])))
            (some (mapUpdate (d.mapFile.getD []) idx.vecs.length i)))
        else none := by
  unfold add_embedding_to_index _load_faiss
  rw [h]
  rfl

theorem search_eq_of_no_index (q : Vec) (k : Nat) (d : Disk)
    (h : d.indexFile = none) : search_embeddings q k d = some [] := by
  unfold search_embeddings searchPair _load_faiss
  rw [h]

theorem search_eq_of_index (q : Vec) (k : Nat) (d : Disk) (idx : FaissIndex)
    (h : d.indexFile = some idx) :
    search_embeddings q k d
      = if idx.vecs.length = 0 then some []
        else if q.length = idx.d then
          some ((faissSearch idx q (min k idx.vecs.length)).filterMap
            (fun p => mapLookup (d.mapFile.getD []) p))
        else none := by
  unfold search_embeddings searchPair _load_faiss
  rw [h]

/-- On a successful add, the vector count grows by one and the position that
was `ntotal` just before the add now maps to the added document id. -/
theorem add_step_pos (i : Int) (v : Vec) (d d' : Disk)
    (h : add_embedding_to_index i v d = some d') :
    ntotal d' = ntotal d + 1
      ∧ mapLookup (_load_faiss d').2 (ntotal d) = some i := by
  cases hidx : d.indexFile with
  | none =>
    rw [add_eq_of_no_index i v d hidx] at h
    obtain rfl := (Option.some.inj h).symm
    refine ⟨by simp [ntotal, hidx], ?_⟩
    simp only [_load_faiss, Option.getD_some, ntotal, hidx]
    exact mapLookup_update_self _ _ _
  | some idx =>
    rw [add_eq_of_index i v d idx hidx] at h
    by_cases hv : v.length = idx.d
    · rw [if_pos hv] at h
      obtain rfl := (Option.some.inj h).symm
      refine ⟨by simp [ntotal, hidx], ?_⟩
      simp only [_load_faiss, Option.getD_some, ntotal, hidx]
      exact mapLookup_update_self _ _ _
    · rw [if_neg hv] at h
      simp at h

/-- Attempts that never reach `add` do not change the vector count; each
successful add increments it. -/
theorem runAttempts_ntotal (l : List Attempt) (d0 d : Disk)
    (h : runAttempts l d0 = some d) : ntotal d = ntotal d0 + okCount l := by
  induction l generalizing d0 with
  | nil =>
    obtain rfl := (Option.some.inj h).symm
    simp [okCount]
  | cons a rest ih =>
    cases a with
    | failed =>
      simp only [runAttempts] at h
      rw [ih d0 h]
      simp [okCount]
    | ok i v =>
      simp only [runAttempts] at h
      cases hadd : add_embedding_to_index i v d0 with
      | none => rw [hadd] at h; simp at h
      | some d1 =>
        rw [hadd] at h
        have := (add_step_pos i v d0 d1 hadd).1
        rw [ih d1 h, this]
        simp [okCount]
        omega

/-! Claim theorems. -/

/-- C1: after any sequence of successful `add(id_i, vec_i)` calls on a fresh
index, a search whose query equals one of the added vectors, with k at least
one, returns a non-empty result whose first id belongs to an added pair
whose vector equals the query — so the top hit is `id_i` itself or an id
tied with it at L2 distance zero. -/
theorem search_after_adds_returns_added_id (l : List (Int × Vec)) (d : Disk)
    (h : addAll l emptyDisk = some d) (pr : Int × Vec) (hpr : pr ∈ l)
    (k : Nat) (hk : 1 ≤ k) :
    ∃ first rest, search_embeddings pr.2 k d = some (first :: rest)
      ∧ ∃ pr', pr' ∈ l ∧ pr'.1 = first ∧ pr'.2 = pr.2 := by
  rcases addAll_shape l d h with ⟨hl, _⟩ | ⟨dim, hdim, hd⟩
  · subst hl; simp at hpr
  · subst hd
    have hqmem : pr.2 ∈ vecsOf l := List.mem_map_of_mem Prod.snd hpr
    have hqlen : (pr.2).length = dim := hdim pr.2 hqmem
    have hlpos : 0 < (vecsOf l).length := by
      cases hv : vecsOf l with
      | nil => rw [hv] at hqmem; simp at hqmem
      | cons a as => simp [hv]
    have hnz : ¬ (vecsOf l).length = 0 := by omega
    -- the sorted enumeration of positions
    have hperm := List.perm_insertionSort (distRel pr.2) (posEnum 0 (vecsOf l))
    have hsortlen :
        (List.insertionSort (distRel pr.2) (posEnum 0 (vecsOf l))).length
          = (vecsOf l).length := by
      rw [hperm.length_eq, posEnum_length]
    have hsortne : List.insertionSort (distRel pr.2) (posEnum 0 (vecsOf l)) ≠ [] := by
      intro hnil
      rw [hnil] at hsortlen
      simp at hsortlen
      omega
    obtain ⟨hd0, tl, hcons⟩ := List.exists_cons_of_ne_nil hsortne
    -- the query's own position is in the sorted list
    obtain ⟨jq, hjq⟩ := List.get?_of_mem hqmem
    have hqsorted : (jq, pr.2) ∈ hd0 :: tl := by
      rw [← hcons]
      exact hperm.mem_iff.mpr (by simpa using posEnum_mem_of 0 jq (vecsOf l) pr.2 hjq)
    -- the head of the sorted list is at squared distance 0 from the query
    have hsortedS := List.sorted_insertionSort (distRel pr.2) (posEnum 0 (vecsOf l))
    rw [hcons, List.sorted_cons] at hsortedS
    have hhead0 : sqDist hd0.2 pr.2 = 0 := by
      rcases List.mem_cons.mp hqsorted with he | htl
      · rw [show hd0.2 = pr.2 from by rw [← he]]
        exact sqDist_self pr.2
      · rcases hsortedS.1 _ htl with hlt | ⟨heq, _⟩
        · exact absurd (hlt.trans_le (le_of_eq (sqDist_self pr.2)))
            (not_lt.mpr (sqDist_nonneg _ _))
        · rw [heq]; exact sqDist_self pr.2
    -- the head's position and vector
    have hheadmem : hd0 ∈ posEnum 0 (vecsOf l) := by
      rw [← hperm.mem_iff, hcons]
      exact List.mem_cons_self _ _
    obtain ⟨jh, hjh, hph⟩ := posEnum_mem 0 (vecsOf l) hd0.1 hd0.2
      (by simpa using hheadmem)
    have hheadlen : hd0.2.length = dim := hdim _ (List.get?_mem hjh)
    have hheadeq : hd0.2 = pr.2 :=
      sqDist_eq_zero _ _ (by rw [hheadlen, hqlen]) hhead0
    -- the pair of the original list at the head's position
    have hjhlt : jh < l.length := by
      obtain ⟨hlt, _⟩ := List.get?_eq_some.mp hjh
      simpa [vecsOf] using hlt
    obtain ⟨pr', hpr'⟩ : ∃ a, l.get? jh = some a :=
      ⟨l.get ⟨jh, hjhlt⟩, List.get?_eq_get hjhlt⟩
    have hsnd : pr'.2 = hd0.2 := by
      have : (vecsOf l).get? jh = (l.get? jh).map Prod.snd := by
        simp [vecsOf, List.get?_map]
      rw [hjh, hpr'] at this
      exact (Option.some.inj this).symm
    have hfst : (idsOf l).get? jh = some pr'.1 := by
      have : (idsOf l).get? jh = (l.get? jh).map Prod.fst := by
        simp [idsOf, List.get?_map]
      rw [hpr'] at this
      simpa using this
    -- lookup of the head position in the map succeeds
    have hlook : mapLookup (mkMap 0 (idsOf l)) hd0.1 = some pr'.1 := by
      rw [hph]
      simpa using (mkMap_lookup (idsOf l) 0 jh).trans hfst
    -- unfold the search
    have hkk : ∃ kk', min k (vecsOf l).length = kk' + 1 := by
      have : 1 ≤ min k (vecsOf l).length := le_min hk (by omega)
      exact ⟨min k (vecsOf l).length - 1, by omega⟩
    obtain ⟨kk', hkk'⟩ := hkk
    refine ⟨pr'.1,
      ((tl.take kk').map Prod.fst).filterMap (fun p => mapLookup (mkMap 0 (idsOf l)) p),
      ?_, pr', List.get?_mem hpr', rfl, by rw [hsnd, hheadeq]⟩
    unfold search_embeddings searchPair _load_faiss faissSearch
    simp only [Option.getD_some]
    rw [if_neg hnz, if_pos hqlen, hkk', hcons, List.take_succ_cons,
      List.map_cons, List.filterMap_cons_some hlook]

theorem search_after_adds_returns_added_id_witness :
    ∃ first rest,
      search_embeddings ((9 : Int), ([0, 1] : Vec)).2 2 dEx1 = some (first :: rest)
        ∧ ∃ pr', pr' ∈ [((5 : Int), ([1, 0] : Vec)), (9, [0, 1])]
            ∧ pr'.1 = first ∧ pr'.2 = ((9 : Int), ([0, 1] : Vec)).2 :=
  search_after_adds_returns_added_id [(5, [1, 0]), (9, [0, 1])] dEx1 (by decide)
    (9, [0, 1]) (by decide) 2 (by decide)

/-- C2: over any run from a fresh data directory in which failed attempts
never reach `add`, the vector count before the next successful add equals
the number of prior successful adds, and that add records its id exactly at
this position — the n-th successful add is assigned position n-1, which is
`ntotal` immediately before the add. -/
theorem nth_add_gets_position (pre : List Attempt) (i : Int) (v : Vec)
    (dpre d' : Disk) (hpre : runAttempts pre emptyDisk = some dpre)
    (hadd : add_embedding_to_index i v dpre = some d') :
    ntotal dpre = okCount pre
      ∧ mapLookup (_load_faiss d').2 (okCount pre) = some i
      ∧ ntotal d' = okCount pre + 1 := by
  have h0 : ntotal dpre = okCount pre := by
    have := runAttempts_ntotal pre emptyDisk dpre hpre
    simpa [ntotal, emptyDisk] using this
  obtain ⟨h1, h2⟩ := add_step_pos i v dpre d' hadd
  exact ⟨h0, by rw [← h0]; exact h2, by omega⟩

theorem nth_add_gets_position_witness :
    ntotal dC2pre = okCount [Attempt.failed, Attempt.ok 3 [2], Attempt.failed]
      ∧ mapLookup (_load_faiss dC2post).2
          (okCount [Attempt.failed, Attempt.ok 3 [2], Attempt.failed]) = some 7
      ∧ ntotal dC2post = okCount [Attempt.failed, Attempt.ok 3 [2], Attempt.failed] + 1 :=
  nth_add_gets_position [Attempt.failed, Attempt.ok 3 [2], Attempt.failed] 7 [5]
    dC2pre dC2post (by decide) (by decide)

/-- C3: when a search returns, it returns at most `min k ntotal` ids, every
returned id is the value of some mapping entry (positions absent from the
mapping are skipped, never an error), and a missing or empty index gives
the empty result. -/
theorem search_bounds (q : Vec) (k : Nat) (d : Disk) (r : List Int)
    (h : search_embeddings q k d = some r) :
    r.length ≤ min k (ntotal d)
      ∧ (∀ id ∈ r, ∃ p, mapLookup (_load_faiss d).2 p = some id)
      ∧ (ntotal d = 0 → search_embeddings q k d = some []) := by
  cases hidx : d.indexFile with
  | none =>
    rw [search_eq_of_no_index q k d hidx] at h
    obtain rfl := (Option.some.inj h).symm
    exact ⟨by simp, by simp, fun _ => search_eq_of_no_index q k d hidx⟩
  | some idx =>
    rw [search_eq_of_index q k d idx hidx] at h
    have hnt : ntotal d = idx.vecs.length := by simp [ntotal, hidx]
    by_cases h0 : idx.vecs.length = 0
    · rw [if_pos h0] at h
      obtain rfl := (Option.some.inj h).symm
      refine ⟨by simp, by simp, fun _ => ?_⟩
      rw [search_eq_of_index q k d idx hidx, if_pos h0]
    · rw [if_neg h0] at h
      by_cases hq : q.length = idx.d
      · rw [if_pos hq] at h
        obtain rfl := (Option.some.inj h).symm
        refine ⟨?_, ?_, ?_⟩
        · have hlen1 := List.length_filterMap_le
            (fun p => mapLookup (d.mapFile.getD []) p)
            (faissSearch idx q (min k idx.vecs.length))
          have hlen2 : (faissSearch idx q (min k idx.vecs.length)).length
              ≤ min k idx.vecs.length := by
            unfold faissSearch
            rw [List.length_map, List.length_take]
            exact min_le_left _ _
          rw [hnt]
          omega
        · intro id hid
          obtain ⟨p, _, hlook⟩ := List.mem_filterMap.mp hid
          exact ⟨p, by simpa [_load_faiss] using hlook⟩
        · intro h0'
          rw [hnt] at h0'
          exact absurd h0' h0
      · rw [if_neg hq] at h
        simp at h

theorem search_bounds_witness :
    ([(5 : Int), 9] : List Int).length ≤ min 5 (ntotal dEx1)
      ∧ (∀ id ∈ ([(5 : Int), 9] : List Int),
          ∃ p, mapLookup (_load_faiss dEx1).2 p = some id)
      ∧ (ntotal dEx1 = 0 → search_embeddings [1, 0] 5 dEx1 = some []) :=
  search_bounds [1, 0] 5 dEx1 [5, 9] (by decide)

/-- C4 counterexample: both adds for bookmark id 17 succeed — as happens
when the same document is processed and indexed twice — and afterward id 17
appears at the two distinct positions 0 and 1 of the mapping, so one
external id occupies more than one position. -/
theorem same_id_two_positions :
    addAll [(17, [1]), (17, [2])] emptyDisk = some dC4
      ∧ mapLookup (_load_faiss dC4).2 0 = some 17
      ∧ mapLookup (_load_faiss dC4).2 1 = some 17
      ∧ ((_load_faiss dC4).2.filter (fun pr => pr.2 == 17)).length = 2 := by
  decide

/-- C4 amended: the mapping holds exactly `ntotal` entries at distinct
positions, each strictly below `ntotal`; this holds for the fresh store and
is preserved by every successful add.  (The claim's further part — one
external id at no more than one position — is false: re-indexing the same
document maps its id at a second position.) -/
theorem mapping_invariant_preserved (d d' : Disk) (i : Int) (v : Vec)
    (hinv : mapInv d) (hadd : add_embedding_to_index i v d = some d') :
    mapInv emptyDisk ∧ mapInv d' := by
  refine ⟨by simp [mapInv, _load_faiss, ntotal, emptyDisk], ?_⟩
  cases hidx : d.indexFile with
  | none =>
    rw [add_eq_of_no_index i v d hidx] at hadd
    obtain rfl := (Option.some.inj hadd).symm
    have hm0 : d.mapFile.getD [] = [] := by
      have h1 := hinv.1
      simp only [_load_faiss, ntotal, hidx] at h1
      exact List.length_eq_zero.mp h1
    simp [mapInv, _load_faiss, ntotal, hm0, mapUpdate]
  | some idx =>
    rw [add_eq_of_index i v d idx hidx] at hadd
    by_cases hv : v.length = idx.d
    · rw [if_pos hv] at hadd
      obtain rfl := (Option.some.inj hadd).symm
      obtain ⟨hlen, hlt, hnd⟩ := hinv
      have hnt : ntotal d = idx.vecs.length := by simp [ntotal, hidx]
      have hkeys : ∀ pr ∈ d.mapFile.getD ([] : VecMap), pr.1 ≠ idx.vecs.length := by
        intro pr hpr
        have hp := hlt pr (by simpa [_load_faiss] using hpr)
        rw [hnt] at hp
        omega
      have hup := mapUpdate_fresh (d.mapFile.getD []) idx.vecs.length i hkeys
      have hlen' : (d.mapFile.getD ([] : VecMap)).length = idx.vecs.length := by
        have h1 := hlen
        simp only [_load_faiss] at h1
        rw [hnt] at h1
        exact h1
      have hnd' : ((d.mapFile.getD ([] : VecMap)).map Prod.fst).Nodup := by
        simpa [_load_faiss] using hnd
      unfold mapInv _load_faiss ntotal
      simp only [Option.getD_some, hup]
      refine ⟨?_, ?_, ?_⟩
      · simp [hlen']
      · intro pr hpr
        rcases List.mem_append.mp hpr with hpr | hpr
        · have hp := hlt pr (by simpa [_load_faiss] using hpr)
          rw [hnt] at hp
          simp
          omega
        · simp at hpr
          simp [hpr]
      · rw [List.map_append]
        simp only [List.map_cons, List.map_nil]
        rw [List.nodup_append]
        refine ⟨hnd', by simp, ?_⟩
        intro x hx hx'
        simp at hx'
        obtain ⟨pr, hpr, hpx⟩ := List.mem_map.mp hx
        have hp := hlt pr (by simpa [_load_faiss] using hpr)
        rw [hnt] at hp
        omega
    · rw [if_neg hv] at hadd
      simp at hadd

theorem mapping_invariant_preserved_witness :
    mapInv emptyDisk ∧ mapInv dC2post :=
  mapping_invariant_preserved dC2pre dC2post 7 [5]
    (by unfold mapInv; exact ⟨by decide, by decide, by decide⟩) (by decide)

/-- C5: for a store reached by a sequence of successful adds, saving the
loaded (index, mapping) pair back to disk and searching the reloaded state
gives exactly the same result as searching before persisting. -/
theorem save_load_roundtrip_search (l : List (Int × Vec)) (d : Disk)
    (h : addAll l emptyDisk = some d) (q : Vec) (k : Nat) :
    search_embeddings q k (_save_faiss (_load_faiss d).1 (_load_faiss d).2 d)
      = search_embeddings q k d := by
  cases hidx : d.indexFile with
  | none =>
    have hsave : _save_faiss (_load_faiss d).1 (_load_faiss d).2 d
        = Disk.mk none (some (d.mapFile.getD [])) := by
      unfold _save_faiss _load_faiss
      rw [hidx]
    rw [hsave, search_eq_of_no_index q k _ rfl, search_eq_of_no_index q k d hidx]
  | some idx =>
    have hsave : _save_faiss (_load_faiss d).1 (_load_faiss d).2 d
        = Disk.mk (some idx) (some (d.mapFile.getD [])) := by
      unfold _save_faiss _load_faiss
      rw [hidx]
    rw [hsave, search_eq_of_index q k _ idx rfl, search_eq_of_index q k d idx hidx]
    rfl

theorem save_load_roundtrip_search_witness :
    search_embeddings [1, 0] 3 (_save_faiss (_load_faiss dEx1).1 (_load_faiss dEx1).2 dEx1)
      = search_embeddings [1, 0] 3 dEx1 :=
  save_load_roundtrip_search [(5, [1, 0]), (9, [0, 1])] dEx1 (by decide) [1, 0] 3

/-! Supporting lemmas about the pipeline stages. -/

theorem mem_addTags (tags ls : List Str) (x : Str) :
    x ∈ addTags tags ls ↔ x ∈ tags ∨ x ∈ ls := by
  induction ls generalizing tags with
  | nil => simp [addTags]
  | cons l ls ih =>
    simp only [addTags]
    rw [ih]
    by_cases h : l ∈ tags
    · rw [if_pos h]
      simp only [List.mem_cons]
      constructor
      · rintro (hx | hx)
        · exact Or.inl hx
        · exact Or.inr (Or.inr hx)
      · rintro (hx | hx | hx)
        · exact Or.inl hx
        · exact Or.inl (hx ▸ h)
        · exact Or.inr hx
    · rw [if_neg h]
      simp only [List.mem_append, List.mem_singleton, List.mem_cons]
      tauto

theorem addTags_of_subset (tags ls : List Str) (h : ∀ l ∈ ls, l ∈ tags) :
    addTags tags ls = tags := by
  induction ls generalizing tags with
  | nil => rfl
  | cons l ls ih =>
    have hl : l ∈ tags := h l (by simp)
    simp only [addTags, if_pos hl]
    exact ih tags (fun x hx => h x (List.mem_cons_of_mem _ hx))

theorem addTags_idem (tags ls : List Str) :
    addTags (addTags tags ls) ls = addTags tags ls :=
  addTags_of_subset _ _ (fun l hl => (mem_addTags _ _ _).mpr (Or.inr hl))

theorem addTags_nodup (tags ls : List Str) (h : tags.Nodup) :
    (addTags tags ls).Nodup := by
  induction ls generalizing tags with
  | nil => exact h
  | cons l ls ih =>
    simp only [addTags]
    by_cases hl : l ∈ tags
    · rw [if_pos hl]
      exact ih tags h
    · rw [if_neg hl]
      refine ih _ ?_
      rw [List.nodup_append]
      exact ⟨h, by simp, by simpa [List.disjoint_singleton] using hl⟩

theorem tagStage_idem (env : Env) (text : Str) (tags : List Str) :
    tagStage env text (tagStage env text tags) = tagStage env text tags := by
  unfold tagStage
  cases hat : auto_tag env text none tagThreshold with
  | none => rfl
  | some labels => simp [addTags_idem]

theorem joinNL_mem (chunks : List Str) (x : Char) (h : x ∈ joinNL chunks) :
    (∃ c ∈ chunks, x ∈ c) ∨ x = '\n' := by
  induction chunks with
  | nil => simp [joinNL] at h
  | cons c rest ih =>
    cases rest with
    | nil =>
      simp only [joinNL] at h
      exact Or.inl ⟨c, by simp, h⟩
    | cons c2 rest2 =>
      simp only [joinNL] at h
      rcases List.mem_append.mp h with h | h
      · exact Or.inl ⟨c, by simp, h⟩
      · rcases List.mem_cons.mp h with h | h
        · exact Or.inr h
        · rcases ih h with ⟨c', hc', hx⟩ | h
          · exact Or.inl ⟨c', List.mem_cons_of_mem _ hc', hx⟩
          · exact Or.inr h

theorem pyStrip_all_ws (s : Str) (h : ∀ x ∈ s, x.isWhitespace = true) :
    pyStrip s = [] := by
  unfold pyStrip
  rw [List.dropWhile_eq_nil_iff.mpr h]
  simp

theorem fullTextOf_ws (env : Env) (bm : Bookmark)
    (h : ∀ c ∈ chunksOf env bm, c.all Char.isWhitespace = true) :
    fullTextOf env bm = [] := by
  unfold fullTextOf
  apply pyStrip_all_ws
  intro x hx
  rcases joinNL_mem _ x hx with ⟨c, hc, hxc⟩ | rfl
  · exact List.all_eq_true.mp (h c hc) x hxc
  · rfl

theorem embedStage_keeps (env : Env) (bm : Bookmark) (ft : Str) :
    (embedStage env bm ft).1.text = bm.text
      ∧ (embedStage env bm ft).1.tags = bm.tags
      ∧ (embedStage env bm ft).1.id = bm.id
      ∧ (embedStage env bm ft).1.links = bm.links
      ∧ (embedStage env bm ft).1.files = bm.files := by
  unfold embedStage
  by_cases h : ft = []
  · rw [if_pos h]
    exact ⟨rfl, rfl, rfl, rfl, rfl⟩
  · rw [if_neg h]
    cases generate_embedding env ft <;> exact ⟨rfl, rfl, rfl, rfl, rfl⟩

theorem embedStage_embedding (env : Env) (bm : Bookmark) (ft : Str) :
    (embedStage env bm ft).1.embedding
      = if ft = [] then bm.embedding else generate_embedding env ft := by
  unfold embedStage
  by_cases h : ft = []
  · rw [if_pos h, if_pos h]
  · rw [if_neg h, if_neg h]
    cases generate_embedding env ft <;> rfl

theorem embedStage_events (env : Env) (bm : Bookmark) (ft : Str) :
    (embedStage env bm ft).2 = [] ∨ (embedStage env bm ft).2 = [Event.embedCall ft] := by
  unfold embedStage
  by_cases h : ft = []
  · rw [if_pos h]
    exact Or.inl rfl
  · rw [if_neg h]
    cases generate_embedding env ft <;> exact Or.inr rfl

theorem embedStage_events_of_text (env : Env) (bm : Bookmark) (ft : Str)
    (h : ¬ ft = []) : (embedStage env bm ft).2 = [Event.embedCall ft] := by
  unfold embedStage
  rw [if_neg h]
  cases generate_embedding env ft <;> rfl

theorem tagStageRun_keeps (env : Env) (bm : Bookmark) (ft : Str) :
    (tagStageRun env bm ft).1.text = bm.text
      ∧ (tagStageRun env bm ft).1.embedding = bm.embedding
      ∧ (tagStageRun env bm ft).1.id = bm.id
      ∧ (tagStageRun env bm ft).1.links = bm.links
      ∧ (tagStageRun env bm ft).1.files = bm.files := by
  unfold tagStageRun
  by_cases h : ft = []
  · rw [if_pos h]
    exact ⟨rfl, rfl, rfl, rfl, rfl⟩
  · rw [if_neg h]
    cases auto_tag env ft none tagThreshold <;> exact ⟨rfl, rfl, rfl, rfl, rfl⟩

theorem tagStageRun_tags (env : Env) (bm : Bookmark) (ft : Str) :
    (tagStageRun env bm ft).1.tags
      = if ft = [] then bm.tags else tagStage env ft bm.tags := by
  unfold tagStageRun tagStage
  by_cases h : ft = []
  · rw [if_pos h, if_pos h]
  · rw [if_neg h, if_neg h]
    cases auto_tag env ft none tagThreshold <;> rfl

theorem tagStageRun_events (env : Env) (bm : Bookmark) (ft : Str) :
    ∀ e ∈ (tagStageRun env bm ft).2, e = Event.tagCall ft ∨ ∃ l, e = Event.tagAdd l := by
  unfold tagStageRun
  by_cases h : ft = []
  · rw [if_pos h]
    simp
  · rw [if_neg h]
    cases auto_tag env ft none tagThreshold with
    | none =>
      intro e he
      simp at he
      exact Or.inl he
    | some labels =>
      intro e he
      rcases List.mem_cons.mp he with he | he
      · exact Or.inl he
      · obtain ⟨l, _, hl⟩ := List.mem_map.mp he
        exact Or.inr ⟨l, hl.symm⟩

theorem tagCall_mem_tagStageRun (env : Env) (bm : Bookmark) (ft : Str)
    (h : ¬ ft = []) : Event.tagCall ft ∈ (tagStageRun env bm ft).2 := by
  unfold tagStageRun
  rw [if_neg h]
  cases auto_tag env ft none tagThreshold <;> simp

theorem faissStage_events (bm : Bookmark) (d : Disk) :
    ∀ e ∈ (faissStage bm d).2, ∃ i v, e = Event.faissAdd i v := by
  unfold faissStage
  cases bm.embedding with
  | none => simp
  | some emb =>
    dsimp only
    by_cases h : emb = []
    · rw [if_pos h]
      simp
    · rw [if_neg h]
      cases add_embedding_to_index bm.id emb d with
      | none => simp
      | some d' =>
        intro e he
        simp at he
        exact ⟨bm.id, emb, he⟩

theorem process_bm_eq (env : Env) (bm : Bookmark) (d : Disk) :
    (process_bookmark env bm d).bm = (s3Of env bm).1 := rfl

theorem process_trace_eq (env : Env) (bm : Bookmark) (d : Disk) :
    (process_bookmark env bm d).trace
      = (s2Of env bm).2
          ++ Event.saveDoc (s2Of env bm).1.text (s2Of env bm).1.embedding
          :: ((s3Of env bm).2 ++ (s4Of env bm d).2) := rfl

theorem process_text (env : Env) (bm : Bookmark) (d : Disk) :
    (process_bookmark env bm d).bm.text = fullTextOf env bm := by
  rw [process_bm_eq]
  unfold s3Of
  rw [(tagStageRun_keeps env _ _).1]
  unfold s2Of
  rw [(embedStage_keeps env _ _).1]
  rfl

theorem process_embedding (env : Env) (bm : Bookmark) (d : Disk) :
    (process_bookmark env bm d).bm.embedding
      = if fullTextOf env bm = [] then bm.embedding
        else generate_embedding env (fullTextOf env bm) := by
  rw [process_bm_eq]
  unfold s3Of
  rw [(tagStageRun_keeps env _ _).2.1]
  unfold s2Of
  rw [embedStage_embedding]
  rfl

theorem process_tags (env : Env) (bm : Bookmark) (d : Disk) :
    (process_bookmark env bm d).bm.tags
      = if fullTextOf env bm = [] then bm.tags
        else tagStage env (fullTextOf env bm) bm.tags := by
  rw [process_bm_eq]
  unfold s3Of
  rw [tagStageRun_tags]
  unfold s2Of
  rw [(embedStage_keeps env _ _).2.1]
  rfl

theorem process_links (env : Env) (bm : Bookmark) (d : Disk) :
    (process_bookmark env bm d).bm.links = bm.links := by
  rw [process_bm_eq]
  unfold s3Of
  rw [(tagStageRun_keeps env _ _).2.2.2.1]
  unfold s2Of
  rw [(embedStage_keeps env _ _).2.2.2.1]
  rfl

theorem process_files (env : Env) (bm : Bookmark) (d : Disk) :
    (process_bookmark env bm d).bm.files = bm.files := by
  rw [process_bm_eq]
  unfold s3Of
  rw [(tagStageRun_keeps env _ _).2.2.2.2]
  unfold s2Of
  rw [(embedStage_keeps env _ _).2.2.2.2]
  rfl

set_option maxRecDepth 4000

/-- C6 counterexample: on a bookmark whose single url extracts to "hi", with
the model and classifier available, the pipeline's trace shows `save()`
happening before the tagging and indexing stages, and two separate
document-persistence writes (the save and a tag insertion) — not a single
persistence after all stages have settled. -/
theorem persistence_not_once_at_end :
    (process_bookmark envOk bmEx emptyDisk).trace
        = [Event.embedCall "hi".toList, Event.saveDoc "hi".toList (some [1]),
           Event.tagCall "hi".toList, Event.tagAdd "ml".toList,
           Event.faissAdd 7 [1]]
      ∧ ((process_bookmark envOk bmEx emptyDisk).trace.filter isDocPersist).length = 2 := by
  decide

/-- C6 amended: each run persists the document's text and embedding exactly
once, via a single `save()` that happens after the extraction and embedding
stages but before tagging and indexing; no document persistence precedes
the save, and everything after it (tag insertions, the index write) is a
further, separate persistence step — so a pipeline-level crash during
tagging or indexing leaves the text and embedding already persisted. -/
theorem save_once_before_tagging (env : Env) (bm : Bookmark) (d : Disk) :
    ∃ pre post,
      (process_bookmark env bm d).trace
          = pre ++ Event.saveDoc (process_bookmark env bm d).bm.text
              (process_bookmark env bm d).bm.embedding :: post
        ∧ (∀ e ∈ pre, isDocPersist e = false)
        ∧ (∀ e ∈ post, isSave e = false) := by
  have ht : (process_bookmark env bm d).bm.text = (s2Of env bm).1.text := by
    rw [process_bm_eq]
    exact (tagStageRun_keeps env _ _).1
  have he : (process_bookmark env bm d).bm.embedding = (s2Of env bm).1.embedding := by
    rw [process_bm_eq]
    exact (tagStageRun_keeps env _ _).2.1
  refine ⟨(s2Of env bm).2, (s3Of env bm).2 ++ (s4Of env bm d).2, ?_, ?_, ?_⟩
  · rw [ht, he]
    exact process_trace_eq env bm d
  · intro e he'
    rcases embedStage_events env (bm1Of env bm) (fullTextOf env bm) with hev | hev
    · rw [show (s2Of env bm).2 = [] from hev] at he'
      simp at he'
    · rw [show (s2Of env bm).2 = [Event.embedCall (fullTextOf env bm)] from hev] at he'
      simp at he'
      rw [he']
      rfl
  · intro e he'
    rcases List.mem_append.mp he' with he' | he'
    · rcases tagStageRun_events env _ _ e he' with hev | ⟨l, hev⟩ <;> rw [hev] <;> rfl
    · obtain ⟨i, v, hev⟩ := faissStage_events _ d e he'
      rw [hev]
      rfl

/-- C7 counterexample: with non-empty gathered text but the embedding model
unavailable, the embedding stage runs and fails (the stored embedding is
cleared to none), yet the Tagger is still invoked and even persists a tag —
refuting that the Tagger is called only when embedding succeeds. -/
theorem tagger_runs_after_embed_failure :
    (process_bookmark envNoEmbed bmEx emptyDisk).trace
        = [Event.embedCall "hi".toList, Event.saveDoc "hi".toList none,
           Event.tagCall "hi".toList, Event.tagAdd "ml".toList]
      ∧ (process_bookmark envNoEmbed bmEx emptyDisk).bm.embedding = none := by
  decide

/-- C7 amended: the Embedder is invoked exactly when some non-empty text was
gathered, and the Tagger is likewise invoked exactly when some non-empty
text was gathered — regardless of whether the embedding stage succeeded;
when the tagging call succeeds its labels are merged into the document's
tag set. -/
theorem embed_and_tag_called_iff_text (env : Env) (bm : Bookmark) (d : Disk) :
    (Event.embedCall (fullTextOf env bm) ∈ (process_bookmark env bm d).trace
        ↔ fullTextOf env bm ≠ [])
      ∧ (Event.tagCall (fullTextOf env bm) ∈ (process_bookmark env bm d).trace
        ↔ fullTextOf env bm ≠ [])
      ∧ (∀ labels, fullTextOf env bm ≠ [] →
          auto_tag env (fullTextOf env bm) none tagThreshold = some labels →
          (process_bookmark env bm d).bm.tags = addTags bm.tags labels) := by
  have hnotfaiss : ∀ (e : Event), e ∈ (s4Of env bm d).2 →
      (∀ t, e ≠ Event.embedCall t) ∧ ∀ t, e ≠ Event.tagCall t := by
    intro e he
    obtain ⟨i, v, hev⟩ := faissStage_events _ d e he
    rw [hev]
    constructor
    · intro t hc
      cases hc
    · intro t hc
      cases hc
  refine ⟨?_, ?_, ?_⟩
  · constructor
    · intro hmem
      intro hft
      rw [process_trace_eq] at hmem
      unfold s2Of at hmem
      rw [show embedStage env (bm1Of env bm) (fullTextOf env bm)
            = (bm1Of env bm, []) from by unfold embedStage; rw [if_pos hft]] at hmem
      simp only [List.nil_append, List.mem_cons] at hmem
      rcases hmem with hmem | hmem
      · cases hmem
      · rcases List.mem_append.mp hmem with hmem | hmem
        · unfold s3Of s2Of at hmem
          rw [show embedStage env (bm1Of env bm) (fullTextOf env bm)
                = (bm1Of env bm, []) from by unfold embedStage; rw [if_pos hft]] at hmem
          rcases tagStageRun_events env _ _ _ hmem with hev | ⟨l, hev⟩ <;> cases hev
        · exact (hnotfaiss _ (by
            unfold s4Of s3Of s2Of at hmem ⊢
            exact hmem)).1 _ rfl
    · intro hft
      rw [process_trace_eq]
      unfold s2Of
      rw [embedStage_events_of_text env _ _ hft]
      simp
  · constructor
    · intro hmem
      intro hft
      rw [process_trace_eq] at hmem
      unfold s2Of at hmem
      rw [show embedStage env (bm1Of env bm) (fullTextOf env bm)
            = (bm1Of env bm, []) from by unfold embedStage; rw [if_pos hft]] at hmem
      simp only [List.nil_append, List.mem_cons] at hmem
      rcases hmem with hmem | hmem
      · cases hmem
      · rcases List.mem_append.mp hmem with hmem | hmem
        · unfold s3Of s2Of at hmem
          rw [show embedStage env (bm1Of env bm) (fullTextOf env bm)
                = (bm1Of env bm, []) from by unfold embedStage; rw [if_pos hft]] at hmem
          rw [show tagStageRun env (bm1Of env bm) (fullTextOf env bm)
                = (bm1Of env bm, []) from by unfold tagStageRun; rw [if_pos hft]] at hmem
          simp at hmem
        · exact (hnotfaiss _ (by
            unfold s4Of s3Of s2Of at hmem ⊢
            exact hmem)).2 _ rfl
    · intro hft
      rw [process_trace_eq]
      have := tagCall_mem_tagStageRun env (s2Of env bm).1 (fullTextOf env bm) hft
      unfold s3Of at *
      simp only [List.mem_append, List.mem_cons]
      tauto
  · intro labels hft hat
    rw [process_tags, if_neg hft]
    unfold tagStage
    rw [hat]

/-- C8 counterexample: with the model available (returning 384-length
vectors), `generate_embedding` applied to the empty string returns a
vector, not an error — the code performs no emptiness check. -/
theorem embed_empty_text_returns_vector :
    generate_embedding env384 [] = some (List.replicate 384 0)
      ∧ (List.replicate 384 (0 : Int)).length = 384 := by
  constructor
  · rfl
  · simp

/-- C8 amended: `generate_embedding` applies the model to the text with no
check of any kind: it fails exactly when the model is unavailable, and
otherwise returns whatever vector the model produces for the text — the
empty string included; when the model emits 384-length vectors (as
all-MiniLM-L6-v2 does), the result has length 384. -/
theorem generate_embedding_contract (env : Env) (text : Str) :
    (env.embedModel = none → generate_embedding env text = none)
      ∧ (∀ m, env.embedModel = some m →
          generate_embedding env text = some (m text))
      ∧ (∀ m, env.embedModel = some m → (∀ s, (m s).length = 384) →
          ∃ v, generate_embedding env text = some v ∧ v.length = 384) := by
  refine ⟨?_, ?_, ?_⟩
  · intro h
    unfold generate_embedding
    rw [h]
  · intro m h
    unfold generate_embedding
    rw [h]
  · intro m h h384
    unfold generate_embedding
    rw [h]
    exact ⟨m text, rfl, h384 text⟩

/-- C9: running the tagging stage twice on identical text is a fixed point
(the second run changes nothing), the resulting tag set is exactly the
union of the old tags and the computed labels (no duplicate is appended,
only labels not already present are added), and a full re-processing of a
document leaves its tag set unchanged. -/
theorem retagging_idempotent (env : Env) (text : Str) (tags : List Str)
    (bm : Bookmark) (d d' : Disk) :
    tagStage env text (tagStage env text tags) = tagStage env text tags
      ∧ (∀ x, x ∈ tagStage env text tags ↔
          x ∈ tags ∨ ∃ labels,
            auto_tag env text none tagThreshold = some labels ∧ x ∈ labels)
      ∧ (tags.Nodup → (tagStage env text tags).Nodup)
      ∧ (process_bookmark env (process_bookmark env bm d).bm d').bm.tags
          = (process_bookmark env bm d).bm.tags := by
  refine ⟨tagStage_idem env text tags, ?_, ?_, ?_⟩
  · intro x
    unfold tagStage
    cases hat : auto_tag env text none tagThreshold with
    | none => simp
    | some labels => simp [mem_addTags]
  · intro hnd
    unfold tagStage
    cases hat : auto_tag env text none tagThreshold with
    | none => exact hnd
    | some labels => exact addTags_nodup tags labels hnd
  · have hft2 : fullTextOf env (process_bookmark env bm d).bm = fullTextOf env bm := by
      unfold fullTextOf chunksOf
      rw [process_links, process_files]
    rw [process_tags, hft2, process_tags]
    by_cases hft : fullTextOf env bm = []
    · rw [if_pos hft, if_pos hft]
    · rw [if_neg hft, if_neg hft, tagStage_idem]

/-- C10: `process_bookmark` unconditionally overwrites the stored text with
the stripped newline-join of the successfully extracted chunks and persists
exactly that text together with the current embedding via `save()`; when
every source fails to extract or yields only whitespace, the persisted text
is empty and the embedding field is left as it was (the pipeline does not
set it). -/
theorem process_overwrites_text (env : Env) (bm : Bookmark) (d : Disk) :
    (process_bookmark env bm d).bm.text = pyStrip (joinNL (chunksOf env bm))
      ∧ Event.saveDoc (process_bookmark env bm d).bm.text
          (process_bookmark env bm d).bm.embedding ∈ (process_bookmark env bm d).trace
      ∧ ((∀ c ∈ chunksOf env bm, c.all Char.isWhitespace = true) →
          (process_bookmark env bm d).bm.text = []
            ∧ (process_bookmark env bm d).bm.embedding = bm.embedding) := by
  have ht : (process_bookmark env bm d).bm.text = (s2Of env bm).1.text := by
    rw [process_bm_eq]
    exact (tagStageRun_keeps env _ _).1
  have he : (process_bookmark env bm d).bm.embedding = (s2Of env bm).1.embedding := by
    rw [process_bm_eq]
    exact (tagStageRun_keeps env _ _).2.1
  refine ⟨process_text env bm d, ?_, ?_⟩
  · rw [process_trace_eq, ht, he]
    simp
  · intro hws
    have hft := fullTextOf_ws env bm hws
    constructor
    · rw [process_text env bm d, hft]
    · rw [process_embedding, if_pos hft]

end SmartBookmarks
